import Mathlib

/-!
Verification of the pycrafter4500 protocol codec and command framer
(`src/pycrafter4500/pycrafter4500.py`).

The Python module builds commands for a DLPC350 projector controller as
bit strings ('0'/'1' characters), converts them to byte lists, frames them
into 64-byte USB packets, and orchestrates catalog calls.  We embed the
bit strings as `List Bool` (most-significant bit first, matching the
Python string order) and byte buffers as `List Nat`.
-/

/-- Most-significant-first binary digits of `n`, i.e. Python `bin(n)[2:]`
without the leading-zero special case (`binAux _ 0 = []`).  The first
argument is structural-recursion fuel; any `fuel ≥ n` yields the digits. -/
def binAux : Nat → Nat → List Bool
  | _, 0 => []
  | 0, _ + 1 => []
  | fuel + 1, n + 1 => binAux fuel ((n + 1) / 2) ++ [decide ((n + 1) % 2 = 1)]

/-- Python `bin(a)[2:]`: `bin(0)[2:] = "0"` (a single zero digit), otherwise
the most-significant-first digits of `a`. -/
def binRep (a : Nat) : List Bool :=
  if a = 0 then [false] else binAux a a

/-- `conv_len(a, l)` from the source: render `a` in binary and left-pad with
zeros to length `l`.  Python's `'0' * padding` with negative `padding` is the
empty string, matching `Nat` truncated subtraction here: an oversized `a` is
returned unpadded and untruncated. -/
def conv_len (a l : Nat) : List Bool :=
  List.replicate (l - (binRep a).length) false ++ binRep a

/-- Value of a most-significant-first bit string, i.e. Python `int(s, 2)`. -/
def bitsToNat (l : List Bool) : Nat :=
  l.foldl (fun acc b => 2 * acc + b.toNat) 0

/-- `bits_to_bytes(a, reverse)` from the source: left-pad the bit string to a
multiple of 8, slice into 8-bit groups (`int(a[8*i:8*(i+1)], 2)` becomes
`bitsToNat` of the slice), and reverse the byte list when `reverse` is set. -/
def bits_to_bytes (a : List Bool) (reverse : Bool) : List Nat :=
  let a := if a.length % 8 ≠ 0 then List.replicate (8 - a.length % 8) false ++ a else a
  let bytelist := (List.range (a.length / 8)).map fun i => bitsToNat ((a.drop (8 * i)).take 8)
  if reverse then bytelist.reverse else bytelist

/-- Value of a byte list read big-endian (most-significant byte first). -/
def bytesToNatBE (l : List Nat) : Nat :=
  l.foldl (fun acc b => 256 * acc + b) 0

/-- `fps_to_period(fps)` from the source: `floor(1.0 / fps * 10**6)`,
which for the integer inputs used here is integer division. -/
def fps_to_period (fps : Nat) : Nat :=
  10 ^ 6 / fps

section CodecLemmas

theorem bitsToNat_foldl (l : List Bool) (a : Nat) :
    l.foldl (fun acc b => 2 * acc + b.toNat) a = a * 2 ^ l.length + bitsToNat l := by
  induction l generalizing a with
  | nil => simp [bitsToNat]
  | cons b t ih =>
    simp only [List.foldl_cons, List.length_cons, bitsToNat]
    rw [ih (2 * a + b.toNat), ih (2 * 0 + b.toNat)]
    ring

theorem bitsToNat_cons (b : Bool) (t : List Bool) :
    bitsToNat (b :: t) = b.toNat * 2 ^ t.length + bitsToNat t := by
  simp only [bitsToNat, List.foldl_cons]
  rw [bitsToNat_foldl]
  simp [bitsToNat]

theorem bitsToNat_append (xs ys : List Bool) :
    bitsToNat (xs ++ ys) = bitsToNat xs * 2 ^ ys.length + bitsToNat ys := by
  simp only [bitsToNat, List.foldl_append]
  rw [bitsToNat_foldl ys (List.foldl (fun acc b => 2 * acc + b.toNat) 0 xs)]
  rfl

theorem bitsToNat_replicate_false (k : Nat) :
    bitsToNat (List.replicate k false) = 0 := by
  induction k with
  | zero => rfl
  | succ n ih => rw [List.replicate_succ, bitsToNat_cons, ih]; simp

theorem bitsToNat_replicate_false_append (k : Nat) (xs : List Bool) :
    bitsToNat (List.replicate k false ++ xs) = bitsToNat xs := by
  rw [bitsToNat_append, bitsToNat_replicate_false]
  simp

theorem bitsToNat_lt (l : List Bool) : bitsToNat l < 2 ^ l.length := by
  induction l with
  | nil => simp [bitsToNat]
  | cons b t ih =>
    rw [bitsToNat_cons]
    have hb : b.toNat ≤ 1 := Bool.toNat_le b
    have : b.toNat * 2 ^ t.length ≤ 2 ^ t.length := by
      calc b.toNat * 2 ^ t.length ≤ 1 * 2 ^ t.length :=
            Nat.mul_le_mul_right _ hb
        _ = 2 ^ t.length := by ring
    simp only [List.length_cons, pow_succ]
    omega

theorem bytesToNatBE_foldl (l : List Nat) (a : Nat) :
    l.foldl (fun acc b => 256 * acc + b) a = a * 256 ^ l.length + bytesToNatBE l := by
  induction l generalizing a with
  | nil => simp [bytesToNatBE]
  | cons b t ih =>
    simp only [List.foldl_cons, List.length_cons, bytesToNatBE]
    rw [ih (256 * a + b), ih (256 * 0 + b)]
    ring

theorem bytesToNatBE_cons (b : Nat) (t : List Nat) :
    bytesToNatBE (b :: t) = b * 256 ^ t.length + bytesToNatBE t := by
  simp only [bytesToNatBE, List.foldl_cons]
  rw [bytesToNatBE_foldl]
  simp [bytesToNatBE]

/-- Value correctness of the binary digits: with enough fuel, `binAux` renders
exactly `n`. -/
theorem bitsToNat_binAux : ∀ fuel n, n ≤ fuel → bitsToNat (binAux fuel n) = n := by
  intro fuel
  induction fuel with
  | zero =>
    intro n hn
    interval_cases n
    rfl
  | succ f ih =>
    intro n hn
    match n with
    | 0 => rfl
    | m + 1 =>
      have hdiv : (m + 1) / 2 ≤ f := by omega
      simp only [binAux, bitsToNat_append, ih _ hdiv]
      have : bitsToNat [decide ((m + 1) % 2 = 1)] = (m + 1) % 2 := by
        rcases Nat.mod_two_eq_zero_or_one (m + 1) with h | h <;> simp [h, bitsToNat]
      rw [this]
      simp only [List.length_singleton, pow_one]
      omega

theorem bitsToNat_binRep (a : Nat) : bitsToNat (binRep a) = a := by
  unfold binRep
  split
  · simp [bitsToNat, *]
  · exact bitsToNat_binAux a a le_rfl

theorem bitsToNat_conv_len (a l : Nat) : bitsToNat (conv_len a l) = a := by
  rw [conv_len, bitsToNat_replicate_false_append, bitsToNat_binRep]

/-- Digit-count upper bound: `a < 2^k` means at most `k` digits. -/
theorem binAux_length_le : ∀ fuel n k, n ≤ fuel → n < 2 ^ k → (binAux fuel n).length ≤ k := by
  intro fuel
  induction fuel with
  | zero =>
    intro n k hn _
    interval_cases n
    simp [binAux]
  | succ f ih =>
    intro n k hn hk
    match n with
    | 0 => simp [binAux]
    | m + 1 =>
      have hk1 : 1 ≤ k := by
        by_contra hc
        push_neg at hc
        interval_cases k
        omega
      have hdivfuel : (m + 1) / 2 ≤ f := by omega
      have hdivlt : (m + 1) / 2 < 2 ^ (k - 1) := by
        have h2 : (2 : Nat) ^ k = 2 ^ (k - 1) * 2 := by
          rw [← pow_succ]
          congr 1
          omega
        rw [Nat.div_lt_iff_lt_mul (by norm_num)]
        omega
      have := ih ((m + 1) / 2) (k - 1) hdivfuel hdivlt
      simp only [binAux, List.length_append, List.length_singleton]
      omega

/-- Digit-count lower bound: `2^k ≤ n` forces strictly more than `k` digits. -/
theorem binAux_length_gt : ∀ fuel n k, n ≤ fuel → 2 ^ k ≤ n → k < (binAux fuel n).length := by
  intro fuel
  induction fuel with
  | zero =>
    intro n k hn hk
    have : 1 ≤ n := le_trans (Nat.one_le_two_pow) hk
    omega
  | succ f ih =>
    intro n k hn hk
    match n with
    | 0 =>
      have : 1 ≤ (0 : Nat) := le_trans (Nat.one_le_two_pow) hk
      omega
    | m + 1 =>
      match k with
      | 0 =>
        simp [binAux, List.length_append]
      | j + 1 =>
        have hdivfuel : (m + 1) / 2 ≤ f := by omega
        have hdivge : 2 ^ j ≤ (m + 1) / 2 := by
          rw [Nat.le_div_iff_mul_le (by norm_num)]
          calc 2 ^ j * 2 = 2 ^ (j + 1) := (pow_succ 2 j).symm
            _ ≤ m + 1 := hk
        have := ih ((m + 1) / 2) j hdivfuel hdivge
        simp only [binAux, List.length_append, List.length_singleton]
        omega

theorem binRep_length_le (a k : Nat) (hk : 1 ≤ k) (h : a < 2 ^ k) :
    (binRep a).length ≤ k := by
  unfold binRep
  split
  · simpa using hk
  · exact binAux_length_le a a k le_rfl h

theorem conv_len_length (a l : Nat) (hl : 1 ≤ l) (h : a < 2 ^ l) :
    (conv_len a l).length = l := by
  have hb := binRep_length_le a l hl h
  simp only [conv_len, List.length_append, List.length_replicate]
  omega

theorem bits_to_bytes_length (l : List Bool) (r : Bool) :
    (bits_to_bytes l r).length = (l.length + 7) / 8 := by
  by_cases hm : l.length % 8 = 0 <;> cases r <;>
    simp [bits_to_bytes, hm] <;> omega

/-- Reading the 8-bit chunks of an exactly-chunkable bit string big-endian
recovers the value of the whole bit string. -/
theorem bytesBE_chunks : ∀ (m : Nat) (l : List Bool), l.length = 8 * m →
    bytesToNatBE ((List.range m).map fun i => bitsToNat ((l.drop (8 * i)).take 8)) =
      bitsToNat l := by
  intro m
  induction m with
  | zero =>
    intro l hl
    have : l = [] := List.eq_nil_of_length_eq_zero (by omega)
    subst this
    simp [bytesToNatBE, bitsToNat]
  | succ k ih =>
    intro l hl
    have hlen8 : (l.drop 8).length = 8 * k := by
      simp only [List.length_drop, hl]
      omega
    have hstep : ∀ i, (l.drop (8 * Nat.succ i)).take 8 = ((l.drop 8).drop (8 * i)).take 8 := by
      intro i
      rw [List.drop_drop]
      congr 2
      omega
    rw [List.range_succ_eq_map, List.map_cons, List.map_map]
    have hmap : (List.range k).map ((fun i => bitsToNat ((l.drop (8 * i)).take 8)) ∘ Nat.succ)
        = (List.range k).map fun i => bitsToNat (((l.drop 8).drop (8 * i)).take 8) := by
      apply List.map_congr_left
      intro i _
      simp only [Function.comp_apply, hstep]
    rw [hmap, bytesToNatBE_cons, List.length_map, List.length_range]
    rw [ih (l.drop 8) hlen8]
    have htake : (l.drop (8 * 0)).take 8 = l.take 8 := by norm_num
    rw [htake]
    conv_rhs => rw [← List.take_append_drop 8 l]
    rw [bitsToNat_append, hlen8]
    congr 1
    rw [show (256 : Nat) = 2 ^ 8 from rfl, ← pow_mul]

/-- The unreversed byte list of `bits_to_bytes`, read big-endian, has the
value of the input bit string. -/
theorem bytesToNatBE_bits_to_bytes (l : List Bool) :
    bytesToNatBE (bits_to_bytes l false) = bitsToNat l := by
  by_cases hm : l.length % 8 = 0
  · simp only [bits_to_bytes, hm, ne_eq, not_true_eq_false, if_neg, ite_false,
      not_false_eq_true, if_false, Bool.false_eq_true]
    exact bytesBE_chunks (l.length / 8) l (by omega)
  · simp only [bits_to_bytes, hm, ne_eq, not_false_eq_true, if_true, ite_true,
      Bool.false_eq_true, if_false]
    have hlen : (List.replicate (8 - l.length % 8) false ++ l).length =
        8 * ((List.replicate (8 - l.length % 8) false ++ l).length / 8) := by
      simp only [List.length_append, List.length_replicate]
      omega
    rw [bytesBE_chunks _ _ hlen, bitsToNat_replicate_false_append]

/-- An 8-bit string becomes the single byte holding its value. -/
theorem bits_to_bytes_len8 (l : List Bool) (r : Bool) (h : l.length = 8) :
    bits_to_bytes l r = [bitsToNat l] := by
  have hm : l.length % 8 = 0 := by omega
  have hr : List.range (l.length / 8) = [0] := by rw [h]; decide
  cases r <;>
    simp [bits_to_bytes, hm, hr, List.take_of_length_le, h.le]

/-- A 16-bit string becomes, after the reversal, its low byte followed by
its high byte. -/
theorem bits_to_bytes_len16 (l : List Bool) (h : l.length = 16) :
    bits_to_bytes l true = [bitsToNat (l.drop 8), bitsToNat (l.take 8)] := by
  have hm : l.length % 8 = 0 := by omega
  have hr : List.range (l.length / 8) = [0, 1] := by rw [h]; decide
  have hdrop : (l.drop 8).take 8 = l.drop 8 := by
    apply List.take_of_length_le
    simp [h]
  simp [bits_to_bytes, hm, hr, hdrop]

/-- The 16-bit length field of the header: for `n < 2^16` the encoded field
is the little-endian byte pair of `n`. -/
theorem data_len_bytes (n : Nat) (h : n < 65536) :
    bits_to_bytes (conv_len n 16) true = [n % 256, n / 256] := by
  have hlen : (conv_len n 16).length = 16 :=
    conv_len_length n 16 (by norm_num) (by norm_num; omega)
  rw [bits_to_bytes_len16 _ hlen]
  have hsplit : bitsToNat (conv_len n 16) =
      bitsToNat ((conv_len n 16).take 8) * 2 ^ ((conv_len n 16).drop 8).length +
        bitsToNat ((conv_len n 16).drop 8) := by
    conv_lhs => rw [← List.take_append_drop 8 (conv_len n 16)]
    rw [bitsToNat_append]
  have hdlen : ((conv_len n 16).drop 8).length = 8 := by simp [hlen]
  have hlo : bitsToNat ((conv_len n 16).drop 8) < 256 := by
    have := bitsToNat_lt ((conv_len n 16).drop 8)
    rw [hdlen] at this
    exact this
  have hval : bitsToNat (conv_len n 16) = n := bitsToNat_conv_len n 16
  rw [hdlen] at hsplit
  rw [hval] at hsplit
  norm_num at hsplit
  have h256 : n % 256 = bitsToNat ((conv_len n 16).drop 8) ∧
      n / 256 = bitsToNat ((conv_len n 16).take 8) := by omega
  rw [h256.1, h256.2]

end CodecLemmas

/-- The continuation-packet loop of `dlpc350.command` (source lines 163-177):
consume `rest` into successive 64-byte packets, writing each full packet, and
zero-pad the final partial packet to 64 bytes.  An empty `rest` writes
nothing (the loop body never runs and `j % 64 == 0` skips the tail write).
The extra `fuel` argument keeps the recursion structural; `chunkPad64`
supplies `rest.length`, which bounds the number of iterations. -/
def chunkPad64Aux : Nat → List Nat → List (List Nat)
  | _, [] => []
  | 0, _ :: _ => []
  | fuel + 1, x :: xs =>
    ((x :: xs).take 64 ++ List.replicate (64 - (x :: xs).length) 0) ::
      chunkPad64Aux fuel ((x :: xs).drop 64)

/-- Packets written by the continuation loop of `dlpc350.command` for the
payload bytes remaining after the first packet. -/
def chunkPad64 (rest : List Nat) : List (List Nat) :=
  chunkPad64Aux rest.length rest

namespace dlpc350

/-- The 6-byte header built at source lines 128-142: direction flag,
sequence byte, 16-bit little-endian length field `len(data) + 2`, then
`com2` before `com1`. -/
def commandHeader (mode : String) (sequence_byte com1 com2 : Nat) (data : List Nat) :
    List Nat :=
  (if mode = "r" then 0xc0 else 0x40) :: sequence_byte ::
    (bits_to_bytes (conv_len (data.length + 2) 16) true ++ [com2, com1])

/-- `dlpc350.command` as a function from the arguments to the list of
packets written to the USB channel (source lines 112-177).  The single-packet
branch zero-fills the buffer to 64 bytes; the multi-packet branch fills the
first packet with header plus leading payload bytes and then runs the
continuation loop from payload offset 58. -/
def command (mode : String) (sequence_byte com1 com2 : Nat) (data : List Nat) :
    List (List Nat) :=
  let buffer := commandHeader mode sequence_byte com1 com2 data
  if buffer.length + data.length < 65 then
    [buffer ++ data ++ List.replicate (64 - (buffer.length + data.length)) 0]
  else
    (buffer ++ data.take (64 - buffer.length)) :: chunkPad64 (data.drop 58)

end dlpc350

section FramerLemmas

theorem chunkPad64Aux_nil (fuel : Nat) : chunkPad64Aux fuel [] = [] := by
  cases fuel <;> rfl

theorem chunkPad64Aux_zero (rest : List Nat) : chunkPad64Aux 0 rest = [] := by
  cases rest <;> rfl

theorem chunkPad64Aux_mem_length :
    ∀ fuel rest c, c ∈ chunkPad64Aux fuel rest → c.length = 64 := by
  intro fuel
  induction fuel with
  | zero =>
    intro rest c hc
    rw [chunkPad64Aux_zero] at hc
    simp at hc
  | succ f ih =>
    intro rest c hc
    match rest with
    | [] =>
      rw [chunkPad64Aux_nil] at hc
      simp at hc
    | x :: xs =>
      simp only [chunkPad64Aux, List.mem_cons] at hc
      rcases hc with h | h
      · subst h
        simp only [List.length_append, List.length_take, List.length_replicate]
        omega
      · exact ih _ c h

theorem chunkPad64Aux_length :
    ∀ fuel rest, rest.length ≤ fuel →
      (chunkPad64Aux fuel rest).length = (rest.length + 63) / 64 := by
  intro fuel
  induction fuel with
  | zero =>
    intro rest h
    have : rest = [] := List.eq_nil_of_length_eq_zero (by omega)
    subst this
    rfl
  | succ f ih =>
    intro rest h
    match rest with
    | [] => rfl
    | x :: xs =>
      have hdrop : ((x :: xs).drop 64).length ≤ f := by
        simp only [List.length_drop]
        simp only [List.length_cons] at h ⊢
        omega
      simp only [chunkPad64Aux, List.length_cons, ih _ hdrop, List.length_drop]
      omega

theorem chunkPad64Aux_flatten :
    ∀ fuel rest, rest.length ≤ fuel →
      (chunkPad64Aux fuel rest).flatten =
        rest ++ List.replicate ((chunkPad64Aux fuel rest).length * 64 - rest.length) 0 := by
  intro fuel
  induction fuel with
  | zero =>
    intro rest h
    have : rest = [] := List.eq_nil_of_length_eq_zero (by omega)
    subst this
    rfl
  | succ f ih =>
    intro rest h
    match rest with
    | [] => rfl
    | x :: xs =>
      have hdrop : ((x :: xs).drop 64).length ≤ f := by
        simp only [List.length_drop, List.length_cons] at h ⊢
        omega
      have hcount := chunkPad64Aux_length f ((x :: xs).drop 64) hdrop
      by_cases hle : (x :: xs).length ≤ 64
      · have htake : (x :: xs).take 64 = x :: xs := List.take_of_length_le hle
        have hd : (x :: xs).drop 64 = [] := List.drop_eq_nil_of_le hle
        simp only [chunkPad64Aux, hd, List.flatten_cons, htake, chunkPad64Aux_nil,
          List.flatten_nil, List.append_nil, List.length_cons, List.length_nil]
      · push_neg at hle
        have hpad : 64 - (x :: xs).length = 0 := by omega
        simp only [chunkPad64Aux, List.flatten_cons, hpad, List.replicate_zero,
          List.append_nil]
        rw [ih _ hdrop, ← List.append_assoc, List.take_append_drop]
        congr 2
        rw [hcount]
        simp only [List.length_cons, List.length_drop] at *
        omega

theorem chunkPad64_mem_length (rest : List Nat) (c : List Nat)
    (hc : c ∈ chunkPad64 rest) : c.length = 64 :=
  chunkPad64Aux_mem_length rest.length rest c hc

theorem chunkPad64_length (rest : List Nat) :
    (chunkPad64 rest).length = (rest.length + 63) / 64 :=
  chunkPad64Aux_length rest.length rest le_rfl

theorem chunkPad64_flatten (rest : List Nat) :
    (chunkPad64 rest).flatten =
      rest ++ List.replicate ((chunkPad64 rest).length * 64 - rest.length) 0 :=
  chunkPad64Aux_flatten rest.length rest le_rfl

theorem dlpc350.commandHeader_eq (mode : String) (sequence_byte com1 com2 : Nat)
    (data : List Nat) (h : data.length + 2 < 65536) :
    dlpc350.commandHeader mode sequence_byte com1 com2 data =
      [if mode = "r" then 0xc0 else 0x40, sequence_byte,
        (data.length + 2) % 256, (data.length + 2) / 256, com2, com1] := by
  rw [dlpc350.commandHeader, data_len_bytes (data.length + 2) h]
  rfl

theorem dlpc350.commandHeader_length (mode : String) (sequence_byte com1 com2 : Nat)
    (data : List Nat) (h : data.length + 2 < 65536) :
    (dlpc350.commandHeader mode sequence_byte com1 com2 data).length = 6 := by
  rw [dlpc350.commandHeader_eq mode sequence_byte com1 com2 data h]
  rfl

/-- Single-packet branch of `dlpc350.command` (source lines 144-153), made
explicit: one 64-byte packet of header, payload, zero fill. -/
theorem dlpc350.command_eq_single (mode : String) (s c1 c2 : Nat) (data : List Nat)
    (h : data.length + 2 < 65536) (hlt : 6 + data.length < 65) :
    dlpc350.command mode s c1 c2 data =
      [dlpc350.commandHeader mode s c1 c2 data ++ data ++
        List.replicate (58 - data.length) 0] := by
  have hb := dlpc350.commandHeader_length mode s c1 c2 data h
  have hc : (dlpc350.commandHeader mode s c1 c2 data).length + data.length < 65 := by
    omega
  simp only [dlpc350.command]
  rw [if_pos hc, hb]
  have harith : 64 - (6 + data.length) = 58 - data.length := by omega
  rw [harith, List.append_assoc]

/-- Multi-packet branch of `dlpc350.command` (source lines 155-177), made
explicit: the first packet takes payload bytes 0..57, the continuation loop
consumes the payload from offset 58. -/
theorem dlpc350.command_eq_multi (mode : String) (s c1 c2 : Nat) (data : List Nat)
    (h : data.length + 2 < 65536) (hge : 65 ≤ 6 + data.length) :
    dlpc350.command mode s c1 c2 data =
      (dlpc350.commandHeader mode s c1 c2 data ++ data.take 58) ::
        chunkPad64 (data.drop 58) := by
  have hb := dlpc350.commandHeader_length mode s c1 c2 data h
  have hc : ¬ ((dlpc350.commandHeader mode s c1 c2 data).length + data.length < 65) := by
    omega
  simp only [dlpc350.command]
  rw [if_neg hc, hb]

end FramerLemmas

/-- C1: the 6-byte header of the first packet written by
`dlpc350.command(mode, sequence_byte, com1, com2, data)` is the direction
flag (0xC0 for read mode 'r', 0x40 otherwise), the caller-supplied sequence
byte, the value `len(data) + 2` as a little-endian 16-bit field, then
selector2 (`com2`) before selector1 (`com1`). -/
theorem dlpc350.command_first_packet_header (mode : String) (s c1 c2 : Nat)
    (data : List Nat) (h : data.length + 2 < 65536) :
    ((dlpc350.command mode s c1 c2 data).headD []).take 6 =
      [if mode = "r" then 0xc0 else 0x40, s,
        (data.length + 2) % 256, (data.length + 2) / 256, c2, c1] := by
  have he := dlpc350.commandHeader_eq mode s c1 c2 data h
  by_cases hlt : 6 + data.length < 65
  · rw [dlpc350.command_eq_single mode s c1 c2 data h hlt, List.append_assoc, he]
    rfl
  · push_neg at hlt
    rw [dlpc350.command_eq_multi mode s c1 c2 data h hlt, he]
    rfl

/-- C1 witness: a concrete read command with a 3-byte payload. -/
theorem dlpc350.command_first_packet_header_witness :
    ((dlpc350.command "r" 0 26 12 [1, 2, 3]).headD []).take 6 =
      [if "r" = "r" then 0xc0 else 0x40, 0,
        (([1, 2, 3] : List Nat).length + 2) % 256,
        (([1, 2, 3] : List Nat).length + 2) / 256, 12, 26] :=
  dlpc350.command_first_packet_header "r" 0 26 12 [1, 2, 3] (by decide)

/-- C2: with `total = 6 + len(payload)`, a total below 65 produces exactly one
packet (header, payload, zero fill), while a total of 65 or more takes the
multi-packet path: the first packet carries payload bytes 0..57 after the
header and the first continuation packet begins at payload offset 58. -/
theorem dlpc350.command_framing_boundary (mode : String) (s c1 c2 : Nat)
    (data : List Nat) (h : data.length + 2 < 65536) :
    (6 + data.length < 65 →
      dlpc350.command mode s c1 c2 data =
        [dlpc350.commandHeader mode s c1 c2 data ++ data ++
          List.replicate (58 - data.length) 0]) ∧
    (65 ≤ 6 + data.length →
      dlpc350.command mode s c1 c2 data =
        (dlpc350.commandHeader mode s c1 c2 data ++ data.take 58) ::
          chunkPad64 (data.drop 58)) ∧
    (65 ≤ 6 + data.length →
      ((dlpc350.command mode s c1 c2 data).getD 1 []).headD 0 =
        (data.drop 58).headD 0) := by
  refine ⟨fun hlt => dlpc350.command_eq_single mode s c1 c2 data h hlt,
    fun hge => dlpc350.command_eq_multi mode s c1 c2 data h hge,
    fun hge => ?_⟩
  rw [dlpc350.command_eq_multi mode s c1 c2 data h hge]
  have hlen : (data.drop 58).length = data.length - 58 := List.length_drop 58 data
  cases hrest : data.drop 58 with
  | nil =>
    rw [hrest] at hlen
    simp only [List.length_nil] at hlen
    omega
  | cons y ys =>
    simp only [List.getD_cons_succ, List.getD_cons_zero, chunkPad64, List.length_cons,
      chunkPad64Aux]
    rw [show (64 : Nat) = 63 + 1 from rfl, List.take_succ_cons]
    rfl

/-- C2 witness: a 59-byte payload gives total = 65 exactly and takes the
multi-packet path split at payload offset 58. -/
theorem dlpc350.command_framing_boundary_witness :
    dlpc350.command "w" 0 26 36 (List.replicate 59 7) =
      (dlpc350.commandHeader "w" 0 26 36 (List.replicate 59 7) ++
        (List.replicate 59 7).take 58) ::
        chunkPad64 ((List.replicate 59 7).drop 58) :=
  (dlpc350.command_framing_boundary "w" 0 26 36 (List.replicate 59 7)
    (by decide)).2.1 (by decide)

/-- C3: every packet written by `dlpc350.command` is exactly 64 bytes, the
packet count covers header plus payload, and the concatenation of the packets
is the header, then the payload bytes in order, then all zeros. -/
theorem dlpc350.command_packet_invariants (mode : String) (s c1 c2 : Nat)
    (data : List Nat) (h : data.length + 2 < 65536) :
    (∀ p ∈ dlpc350.command mode s c1 c2 data, p.length = 64) ∧
    6 + data.length ≤ (dlpc350.command mode s c1 c2 data).length * 64 ∧
    (dlpc350.command mode s c1 c2 data).flatten =
      dlpc350.commandHeader mode s c1 c2 data ++ data ++
        List.replicate
          ((dlpc350.command mode s c1 c2 data).length * 64 - (6 + data.length)) 0 := by
  have hb := dlpc350.commandHeader_length mode s c1 c2 data h
  by_cases hlt : 6 + data.length < 65
  · rw [dlpc350.command_eq_single mode s c1 c2 data h hlt]
    refine ⟨?_, ?_, ?_⟩
    · intro p hp
      simp only [List.mem_singleton] at hp
      subst hp
      simp only [List.length_append, List.length_replicate, hb]
      omega
    · simp only [List.length_singleton]
      omega
    · simp only [List.flatten_cons, List.flatten_nil, List.append_nil,
        List.length_singleton]
      have harith : 1 * 64 - (6 + data.length) = 58 - data.length := by omega
      rw [harith]
  · push_neg at hlt
    rw [dlpc350.command_eq_multi mode s c1 c2 data h hlt]
    have hK := chunkPad64_length (data.drop 58)
    have hdlen : (data.drop 58).length = data.length - 58 := List.length_drop 58 data
    refine ⟨?_, ?_, ?_⟩
    · intro p hp
      rcases List.mem_cons.1 hp with hfst | hcont
      · subst hfst
        simp only [List.length_append, List.length_take, hb]
        omega
      · exact chunkPad64_mem_length _ p hcont
    · simp only [List.length_cons, hK, hdlen]
      omega
    · simp only [List.flatten_cons, chunkPad64_flatten, List.length_cons,
        List.append_assoc]
      rw [← List.append_assoc (data.take 58) (data.drop 58), List.take_append_drop]
      have harith : (chunkPad64 (data.drop 58)).length * 64 - (data.drop 58).length =
          ((chunkPad64 (data.drop 58)).length + 1) * 64 - (6 + data.length) := by
        rw [hK, hdlen]
        omega
      rw [harith]

/-- C3 witness: the single-packet invariants at a concrete 3-byte payload. -/
theorem dlpc350.command_packet_invariants_witness :
    (dlpc350.command "w" 0 26 36 [1, 2, 3]).flatten =
      dlpc350.commandHeader "w" 0 26 36 [1, 2, 3] ++ [1, 2, 3] ++
        List.replicate
          ((dlpc350.command "w" 0 26 36 [1, 2, 3]).length * 64 -
            (6 + ([1, 2, 3] : List Nat).length)) 0 :=
  (dlpc350.command_packet_invariants "w" 0 26 36 [1, 2, 3] (by decide)).2.2

/-- C4: the bit-string codec round-trips: for `v < 2^w`, reading
`conv_len(v, w)` as a base-2 number yields `v`, and the byte list
`bits_to_bytes(conv_len(v, w), reverse=False)` read big-endian also
yields `v`. -/
theorem conv_len_bits_roundtrip (v w : Nat) (h : v < 2 ^ w) :
    bitsToNat (conv_len v w) = v ∧
    bytesToNatBE (bits_to_bytes (conv_len v w) false) = v := by
  refine ⟨bitsToNat_conv_len v w, ?_⟩
  rw [bytesToNatBE_bits_to_bytes, bitsToNat_conv_len]

/-- C4 witness: the round-trip at `v = 5`, `w = 3`. -/
theorem conv_len_bits_roundtrip_witness :
    bitsToNat (conv_len 5 3) = 5 ∧
    bytesToNatBE (bits_to_bytes (conv_len 5 3) false) = 5 :=
  conv_len_bits_roundtrip 5 3 (by decide)

/-- C10: for `v ≥ 2^w`, `conv_len(v, w)` neither raises nor truncates: it is
the full binary representation of `v`, strictly longer than `w` characters and
still of value `v`, so `bits_to_bytes` afterwards emits more than the
`w / 8` bytes an in-range value of an 8-bit-aligned field would occupy. -/
theorem conv_len_overflow_no_truncation (v w : Nat) (h : 2 ^ w ≤ v) :
    conv_len v w = binRep v ∧
    w < (conv_len v w).length ∧
    bitsToNat (conv_len v w) = v ∧
    w / 8 < (bits_to_bytes (conv_len v w) true).length := by
  have hv0 : v ≠ 0 := by
    have := Nat.one_le_two_pow (n := w)
    omega
  have hlen : w < (binRep v).length := by
    unfold binRep
    rw [if_neg hv0]
    exact binAux_length_gt v v w le_rfl h
  have hpad : w - (binRep v).length = 0 := by omega
  have hcv : conv_len v w = binRep v := by
    rw [conv_len, hpad]
    rfl
  refine ⟨hcv, ?_, bitsToNat_conv_len v w, ?_⟩
  · rw [hcv]
    exact hlen
  · rw [bits_to_bytes_length, hcv]
    omega

/-- C10 witness: `v = 300` in a `w = 8` field gives a 9-bit string and two
bytes instead of one. -/
theorem conv_len_overflow_no_truncation_witness :
    conv_len 300 8 = binRep 300 ∧
    8 < (conv_len 300 8).length ∧
    bitsToNat (conv_len 300 8) = 300 ∧
    8 / 8 < (bits_to_bytes (conv_len 300 8) true).length :=
  conv_len_overflow_no_truncation 300 8 (by decide)

/-- A Python value reaching the payload of a catalog call: either an integer
or a string that survived the mode-name lookup unconverted. -/
inductive PyVal where
  | int : Nat → PyVal
  | str : String → PyVal
deriving DecidableEq

/-- `dlpc350.set_pattern_config` (source lines 367-399): the payload handed
to `command('w', 0x00, 0x1a, 0x31, ·)`.  Bit-string layout, most significant
first: 2 reserved + 6-bit images, 8-bit pats−1, 7 reserved + repeat flag,
1 reserved + 7-bit entries−1, then byte conversion with reversal. -/
def dlpc350.set_pattern_config (num_lut_entries : Nat) (do_repeat : Bool)
    (num_pats_for_trig_out2 : Nat) (num_images : Nat) : List Nat :=
  let num_lut_entries' := false :: conv_len (num_lut_entries - 1) 7
  let do_repeat' := List.replicate 7 false ++ [do_repeat]
  let num_pats' := conv_len (num_pats_for_trig_out2 - 1) 8
  let num_images' := false :: false :: conv_len num_images 6
  bits_to_bytes (num_images' ++ num_pats' ++ do_repeat' ++ num_lut_entries') true

/-- `dlpc350.send_pattern_lut` (source lines 500-524): the payload handed to
`command('w', 0x00, 0x1a, 0x34, ·)`.  byte_2 is 4 reserved bits then the four
flags, byte_1 is led_select then bit_depth, byte_0 is pat_num then trig_type;
the concatenation is converted with reversal. -/
def dlpc350.send_pattern_lut (trig_type pat_num bit_depth led_select : Nat)
    (do_invert_pat do_insert_black do_buf_swap do_trig_out_prev : Bool) : List Nat :=
  let byte_0 := conv_len pat_num 6 ++ conv_len trig_type 2
  let byte_1 := conv_len led_select 4 ++ conv_len bit_depth 4
  let byte_2 := [false, false, false, false, do_trig_out_prev, do_buf_swap,
    do_insert_black, do_invert_pat]
  bits_to_bytes (byte_2 ++ byte_1 ++ byte_0) true

/-- `dlpc350.mailbox_set_address` (source lines 401-410): the payload handed
to `command('w', 0x00, 0x1a, 0x32, ·)`; the address is encoded as an 8-bit
field with no range check. -/
def dlpc350.mailbox_set_address (address : Nat) : List Nat :=
  bits_to_bytes (conv_len address 8) true

/-- `dlpc350.set_display_mode` (source lines 260-274): the payload handed to
`command('w', 0x00, 0x1a, 0x1b, ·)`.  A mode found in the list is replaced by
its index; any other value (an unrecognized string, or any integer) is passed
through unchanged. -/
def dlpc350.set_display_mode (mode : PyVal) : List PyVal :=
  let modes : List PyVal := [PyVal.str "video", PyVal.str "pattern"]
  if modes.contains mode then [PyVal.int (modes.indexOf mode)] else [mode]

/-- C5 counterexample: the concrete payload of
`set_pattern_config(3, True, 3, 0)` is not the `[0x00, 0x02, 0x80, 0x02]`
stated by the claim. -/
theorem set_pattern_config_claimed_payload_wrong :
    dlpc350.set_pattern_config 3 true 3 0 ≠ [0x00, 0x02, 0x80, 0x02] := by decide

/-- C5 amended: `set_pattern_config(3, True, 3, 0)` passes the 4-byte payload
`[0x02, 0x01, 0x02, 0x00]` (the bytes are wire-ordered least significant
first and the repeat flag is the least significant bit of its byte), with
byte 1 being the do_repeat flag region: it is 0x01 with the flag set and
0x00 with the flag clear. -/
theorem set_pattern_config_payload :
    dlpc350.set_pattern_config 3 true 3 0 = [0x02, 0x01, 0x02, 0x00] ∧
    dlpc350.set_pattern_config 3 false 3 0 = [0x02, 0x00, 0x02, 0x00] := by decide

/-- C6: `send_pattern_lut(trig_type=1, pat_num=0, bit_depth=7,
led_select=0b111)` with all flags false passes exactly 3 payload bytes:
the pattern byte `pat_num<<2 | trig_type`, the depth byte with led_select in
the high nibble and bit_depth in the low nibble, and a zero flags byte. -/
theorem send_pattern_lut_payload :
    dlpc350.send_pattern_lut 1 0 7 7 false false false false =
      [0 * 4 + 1, 7 * 16 + 7, 0] ∧
    (dlpc350.send_pattern_lut 1 0 7 7 false false false false).length = 3 := by decide

/-- C8 counterexample: an unrecognized display-mode string and a mailbox
address above the documented 0-127 range are not rejected: both reach the
framer payload unchanged. -/
theorem unvalidated_values_reach_framer :
    dlpc350.set_display_mode (PyVal.str "bogus") = [PyVal.str "bogus"] ∧
    dlpc350.mailbox_set_address 200 = [200] ∧
    ¬ (200 ≤ 127) := by decide

/-- C8 amended: catalog operations perform no validation: every 8-bit
mailbox address (including 128-255, outside the documented 0-127 range) is
encoded and passed to the framer as-is, and a display-mode string outside the
recognized set is passed through to the framer as the raw value. -/
theorem catalog_passthrough_unvalidated (a : Nat) (sm : String)
    (ha : a < 256) (hs : sm ≠ "video" ∧ sm ≠ "pattern") :
    dlpc350.mailbox_set_address a = [a] ∧
    dlpc350.set_display_mode (PyVal.str sm) = [PyVal.str sm] := by
  constructor
  · rw [dlpc350.mailbox_set_address]
    have hlen : (conv_len a 8).length = 8 :=
      conv_len_length a 8 (by norm_num) (by norm_num; omega)
    rw [bits_to_bytes_len8 _ _ hlen, bitsToNat_conv_len]
  · simp only [dlpc350.set_display_mode]
    have hnm : ([PyVal.str "video", PyVal.str "pattern"] : List PyVal).contains
        (PyVal.str sm) = false := by
      simp only [List.contains_cons, List.contains_nil, Bool.or_false,
        Bool.or_eq_false_iff, beq_eq_false_iff_ne, ne_eq, PyVal.str.injEq]
      exact ⟨hs.1, hs.2⟩
    rw [hnm]
    simp

/-- C8 amended witness: address 200 and the string "bogus". -/
theorem catalog_passthrough_unvalidated_witness :
    dlpc350.mailbox_set_address 200 = [200] ∧
    dlpc350.set_display_mode (PyVal.str "bogus") = [PyVal.str "bogus"] :=
  catalog_passthrough_unvalidated 200 "bogus" (by decide) ⟨by decide, by decide⟩

/-- One catalog call made by the orchestrator `pattern_mode`, recorded with
the arguments the orchestrator passes (mode and action names still as the
strings the catalog methods receive). -/
inductive Call where
  | patternDisplay (action : String)
  | setDisplayMode (mode : String)
  | setPatternInputSource (mode : String)
  | setPatternConfig (numLutEntries : Nat) (doRepeat : Bool) (numPats numImages : Nat)
  | setPatternTriggerMode (mode : String)
  | setExposureFramePeriod (exposure frame : Nat)
  | openMailbox (mboxNum : Nat)
  | mailboxSetAddress (address : Nat)
  | sendPatternLut (trigType patNum bitDepth ledSelect : Nat)
  | startPatternLutValidate
deriving DecidableEq

/-- The `bit_map` dictionary of `pattern_mode` (source lines 579-583):
pattern indices per LUT slot, keyed by bit depth. -/
def bit_map (d : Nat) : List Nat :=
  if d = 1 then [7, 15, 23]
  else if d = 2 then [3, 7, 11]
  else if d = 4 then [1, 3, 5]
  else if d = 7 then [0, 1, 2]
  else if d = 8 then [0, 1, 2]
  else []

/-- The catalog-call sequence of the orchestrator `pattern_mode` (source
lines 527-605): stop, display mode, input source, pattern config (repeat
defaulted true, images 0), trigger mode, exposure/frame period, open mailbox
2, then for each of the 3 LUT slots a mailbox address and a LUT entry (slot 0
with trigger type 1, later slots with 3), close the mailbox, validate, and
start twice.  `none` when the `assert bit_depth in [1, 2, 4, 7, 8]` fails. -/
def pattern_mode (input_mode input_type : String) (num_pats : Nat)
    (trigger_type : String) (period bit_depth led_color : Nat) :
    Option (List Call) :=
  if bit_depth ∈ [1, 2, 4, 7, 8] then
    some ([Call.patternDisplay "stop",
      Call.setDisplayMode input_mode,
      Call.setPatternInputSource input_type,
      Call.setPatternConfig num_pats true num_pats 0,
      Call.setPatternTriggerMode trigger_type,
      Call.setExposureFramePeriod period period,
      Call.openMailbox 2] ++
      ((List.range 3).flatMap fun i =>
        [Call.mailboxSetAddress i,
          Call.sendPatternLut (if i = 0 then 1 else 3)
            ((bit_map bit_depth).getD i 0) bit_depth led_color]) ++
      [Call.openMailbox 0,
        Call.startPatternLutValidate,
        Call.patternDisplay "start",
        Call.patternDisplay "start"])
  else none

/-- `pattern_mode` at the default arguments of its Python signature
(`input_mode='pattern'`, `input_type='video'`, `num_pats=3`,
`trigger_type='vsync'`, `period=fps_to_period(222)`, `led_color=0b111`),
with the given bit depth. -/
def pattern_mode_default_trace (bit_depth : Nat) : List Call :=
  (pattern_mode "pattern" "video" 3 "vsync" (fps_to_period 222) bit_depth 7).getD []

/-- The (trigger type, pattern index) pairs of the `send_pattern_lut` calls
in an orchestrator trace, in order. -/
def lutEntries (t : List Call) : List (Nat × Nat) :=
  t.filterMap fun c =>
    match c with
    | Call.sendPatternLut trig pat _ _ => some (trig, pat)
    | _ => none

/-- Trigger-type value named Internal in the `send_pattern_lut` docstring
(source line 445: `0: Internal trigger.`). -/
def internalTriggerType : Nat := 0

/-- Trigger-type value named External positive in the `send_pattern_lut`
docstring (source line 446). -/
def externalPositiveTriggerType : Nat := 1

/-- Trigger-type value for No Input Trigger / continue from previous in the
`send_pattern_lut` docstring (source line 448). -/
def noInputTriggerType : Nat := 3

/-- C7 counterexample: at bit_depth 7 the first `send_pattern_lut` call of
the orchestrator uses trigger type 1, External positive per the source
docstring, not the Internal trigger type 0 the claim states. -/
theorem pattern_mode_first_trigger_not_internal :
    ((lutEntries (pattern_mode_default_trace 7)).headD (0, 0)).1 =
      externalPositiveTriggerType ∧
    externalPositiveTriggerType ≠ internalTriggerType := by decide

/-- C7 amended: at bit_depth 7 the orchestrator issues exactly 3
`send_pattern_lut` calls with pattern indices [0, 1, 2] in order, the first
with the External-positive trigger type (1) and the remaining two with the
no-input-trigger/continue type (3), and issues `pattern_display` with the
Start action exactly twice, as the last two calls of the sequence. -/
theorem pattern_mode_lut_and_start_sequence :
    lutEntries (pattern_mode_default_trace 7) =
      [(externalPositiveTriggerType, 0), (noInputTriggerType, 1),
        (noInputTriggerType, 2)] ∧
    (lutEntries (pattern_mode_default_trace 7)).length = 3 ∧
    (pattern_mode_default_trace 7).count (Call.patternDisplay "start") = 2 ∧
    (pattern_mode_default_trace 7).drop ((pattern_mode_default_trace 7).length - 2) =
      [Call.patternDisplay "start", Call.patternDisplay "start"] := by decide

/-- A step of the `connect_usb` context manager: the device lookup, the
configuration call, the yield to the with-body, and the reset. -/
inductive UsbEvent where
  | find
  | setConfiguration
  | yieldDevice
  | reset
deriving DecidableEq

/-- Whether the body of the with-block using `connect_usb` returns normally
or raises an exception. -/
inductive BodyOutcome where
  | normal
  | raised
deriving DecidableEq

/-- `connect_usb` (source lines 80-96) is a `@contextmanager` generator with
no try/finally around its yield: it finds the device, sets the
configuration, and yields.  The `device.reset()` on line 94 runs only when
the with-body returns normally: an exception raised in the body is rethrown
at the yield point and propagates out of the generator, so the statements
after the yield are skipped. -/
def connect_usb (body : BodyOutcome) : List UsbEvent :=
  [UsbEvent.find, UsbEvent.setConfiguration, UsbEvent.yieldDevice] ++
    (match body with
      | BodyOutcome.normal => [UsbEvent.reset]
      | BodyOutcome.raised => [])

/-- C9: the claim says `connect_usb` releases the device (reset) on every
exit path of the scope, including an exception in the with-body; the code
resets only on the normal path and skips the reset when the body raises. -/
theorem connect_usb_reset_skipped_on_exception :
    UsbEvent.reset ∈ connect_usb BodyOutcome.normal ∧
    UsbEvent.reset ∉ connect_usb BodyOutcome.raised := by decide
